import Mathlib

/-!
Verification of the `semiautograd` reverse-mode automatic-differentiation
engine against its specification.  The engine module itself
(`semiautograd.semiautograd`, providing `Scalar`, `Function`, `trace`,
`backward` and `reset_grad`) is not part of the repository snapshot; the
notebooks only import and exercise it.  Following the spec's design notes,
the graph is embedded as an arena (index-based store): a graph is a list of
nodes, a node's `parents` are indices of earlier entries, and the
process-wide construction counter coincides with the arena index, so the
well-formedness invariant `WF` records `seq = index`.  Concrete primitives
(`Double`, `Pow`, `Times`, `Sum`, ...) are translated from the notebook
source `creating_primitives.ipynb`.
-/

namespace Semiautograd

/-- Modelled from the spec: the `Scalar` node record of the missing
`semiautograd.semiautograd` module.  `value` is the forward result,
`producer` the optional primitive that computed it (`none` for leaves),
`parents` the differentiable arguments in call order (arena indices),
`aux` the non-differentiable keyword-style configuration, `grad` the
gradient accumulator (unset until a backward pass touches it), and `seq`
the monotonically increasing construction counter.  `P` is the type of
primitive names/rules, `A` the type of auxiliary configuration. -/
structure SNode (P A : Type) where
  value : ℚ
  producer : Option P
  parents : List Nat
  aux : A
  grad : Option ℚ
  seq : Nat
deriving DecidableEq, Repr

/-- Modelled from the spec: the computation graph as an arena of nodes;
index order is construction order. -/
abbrev SGraph (P A : Type) : Type := List (SNode P A)

variable {P A : Type}

/-- Length of the arena (the value of the process-wide counter). -/
def glen (g : SGraph P A) : Nat := List.length g

/-- Node lookup by arena index. -/
def getN (g : SGraph P A) (i : Nat) : Option (SNode P A) := g[i]?

/-- The `value` field of node `i` (0 for an out-of-range index). -/
def valueOf (g : SGraph P A) (i : Nat) : ℚ := ((getN g i).map SNode.value).getD 0

/-- The `parents` field of node `i` ([] for an out-of-range index). -/
def parentsOf (g : SGraph P A) (i : Nat) : List Nat := ((getN g i).map SNode.parents).getD []

/-- The `producer` field of node `i`. -/
def producerOf (g : SGraph P A) (i : Nat) : Option P := (getN g i).bind SNode.producer

/-- The `grad` field of node `i`. -/
def gradOf (g : SGraph P A) (i : Nat) : Option ℚ := (getN g i).bind SNode.grad

/-- The `seq` field of node `i` (the index itself when out of range). -/
def seqOf (g : SGraph P A) (i : Nat) : Nat := ((getN g i).map SNode.seq).getD i

/-- Replace the `grad` field of a node. -/
def withGrad (nd : SNode P A) (v : Option ℚ) : SNode P A :=
  ⟨nd.value, nd.producer, nd.parents, nd.aux, v, nd.seq⟩

/-- Modelled from the spec: in-place mutation of the `grad` field of node `i`. -/
def setGradAt (g : SGraph P A) (i : Nat) (v : Option ℚ) : SGraph P A :=
  match getN g i with
  | none => g
  | some nd => List.set g i (withGrad nd v)

/-- Modelled from the spec: add `v` into the grad accumulator of node `i`,
treating an unset grad as `0.0` before the first contribution. -/
def addGrad (g : SGraph P A) (i : Nat) (v : ℚ) : SGraph P A :=
  setGradAt g i (some ((gradOf g i).getD 0 + v))

/-- Well-formedness of a graph, as a boolean check: every stored `seq`
equals the node's arena index, every parent index is strictly smaller
than the node's own index (a node can only reference already-constructed
nodes), and a node without a producer is a leaf (no parents). -/
def WFb (g : SGraph P A) : Bool :=
  (List.range (glen g)).all fun i =>
    match getN g i with
    | none => true
    | some nd =>
      (nd.seq == i) && (nd.parents.all fun p => decide (p < i)) &&
        (nd.producer.isSome || nd.parents.isEmpty)

/-- Well-formedness of a graph as a proposition. -/
abbrev WF (g : SGraph P A) : Prop := WFb g = true

/-- Modelled from the spec: reachability by following `parents` links,
with explicit fuel (the recursion is bounded because parents of a
well-formed node have strictly smaller index). -/
def reachF (g : SGraph P A) : Nat → Nat → Nat → Bool
  | 0, _, _ => false
  | fuel + 1, a, b => (a == b) || (parentsOf g a).any fun p => reachF g fuel p b

/-- Reachability from `a` to `b` following `parents` transitively; for a
well-formed graph fuel `a + 1` always suffices. -/
def reachb (g : SGraph P A) (a b : Nat) : Bool := reachF g (a + 1) a b

/-- Reachability by following `parents` links transitively, as an
inductive relation (includes the node itself). -/
inductive Reaches (g : SGraph P A) : Nat → Nat → Prop
  | refl (a : Nat) : Reaches g a a
  | step {a p b : Nat} : p ∈ parentsOf g a → Reaches g p b → Reaches g a b

/-- Modelled from the spec: `trace(root)` returns the nodes reachable from
`root` by following `parents` transitively, deduplicated, sorted by
descending `seq`.  In the arena embedding `seq` equals the index for every
constructed graph, so enumerating indices in descending order and keeping
the reachable ones implements the descending-`seq` sort. -/
def trace (g : SGraph P A) (root : Nat) : List Nat :=
  (List.range (glen g)).reverse.filter fun i => reachb g root i

/-- The list of local partial derivatives returned by the producer of node
`c`, evaluated at the parents' values with the node's aux configuration
(empty when `c` is a leaf or out of range). -/
def pdsOf (bwd : P → List ℚ → A → List ℚ) (g : SGraph P A) (c : Nat) : List ℚ :=
  match getN g c with
  | none => []
  | some nd =>
    match nd.producer with
    | none => []
    | some p => bwd p (nd.parents.map (valueOf g)) nd.aux

/-- Sum of the local partial derivatives of consumer `c` over exactly the
parent slots holding node `j`. -/
def slotSum (bwd : P → List ℚ → A → List ℚ) (g : SGraph P A) (c j : Nat) : ℚ :=
  ((((parentsOf g c).zip (pdsOf bwd g c)).filter fun pq => pq.1 == j).map Prod.snd).sum

/-- Fold a list of (target index, amount) contributions into the grad
accumulators. -/
def contribFold (g : SGraph P A) (prs : List (Nat × ℚ)) : SGraph P A :=
  prs.foldl (fun h pq => addGrad h pq.1 pq.2) g

/-- Modelled from the spec: one step of the backward pass at node `c`.  If
`c` has no producer it is skipped; otherwise the producer's backward rule
is evaluated at the parents' values and, for each (parent, local partial)
pair, `local partial * c.grad` is added into the parent's grad. -/
def backwardStep (bwd : P → List ℚ → A → List ℚ) (g : SGraph P A) (c : Nat) : SGraph P A :=
  match getN g c with
  | none => g
  | some nd =>
    match nd.producer with
    | none => g
    | some p =>
      contribFold g
        (nd.parents.zip ((bwd p (nd.parents.map (valueOf g)) nd.aux).map
          fun d => d * (nd.grad.getD 0)))

/-- Modelled from the spec: the backward pass.  Seed `root.grad = 1.0`,
then process every node of `trace root` in descending-`seq` order. -/
def backward (bwd : P → List ℚ → A → List ℚ) (g : SGraph P A) (root : Nat) : SGraph P A :=
  (trace g root).foldl (backwardStep bwd) (setGradAt g root (some 1))

/-- Modelled from the spec: `reset_grad(root)` walks `trace(root)` and sets
every reachable node's grad back to unset. -/
def reset_grad (g : SGraph P A) (root : Nat) : SGraph P A :=
  (trace g root).foldl (fun h i => setGradAt h i none) g

/-- Modelled from the spec: wrapping a raw numeric input constructs a leaf
node with no producer, no parents, unset grad and a fresh `seq`. -/
def mkLeaf (g : SGraph P A) (v : ℚ) (a : A) : SGraph P A :=
  g ++ [⟨v, none, [], a, none, glen g⟩]

/-- Modelled from the spec: node-mode application of a primitive.  The new
node's value is `forward` applied to the parents' values, its producer is
the primitive, its parents are the argument indices in given order, and
its `seq` is fresh. -/
def applyNodeG (fwd : P → List ℚ → A → ℚ) (p : P) (g : SGraph P A)
    (idxs : List Nat) (a : A) : SGraph P A :=
  g ++ [⟨fwd p (idxs.map (valueOf g)) a, some p, idxs, a, none, glen g⟩]

/-- Modelled from the spec: the error taxonomy entry for a primitive
invoked with a mix of graph nodes and raw numbers. -/
inductive ApplyErr : Type
  | MixedArgumentKind : ApplyErr
deriving DecidableEq, Repr

/-- Result of invoking a primitive: either a plain number (numeric mode)
or a new node in an extended graph (node mode). -/
inductive ApplyRes (P A : Type) : Type
  | num (v : ℚ) : ApplyRes P A
  | node (g : SGraph P A) (i : Nat) : ApplyRes P A

/-- The numeric payload of a raw argument (0 for a node argument). -/
def rawVal : Nat ⊕ ℚ → ℚ
  | .inl _ => 0
  | .inr v => v

/-- The arena index of a node argument (0 for a raw argument). -/
def nodeIdx : Nat ⊕ ℚ → Nat
  | .inl j => j
  | .inr _ => 0

/-- Modelled from the spec: invocation of a `Function` primitive.  The
mode is decided by the kind of the first positional argument: all-raw
arguments degenerate to pure numeric evaluation of `forward` with no node
constructed; all-node arguments build a new node; a mix of kinds is the
fatal `MixedArgumentKind` error, surfaced immediately at call time. -/
def applyPrim (fwd : P → List ℚ → A → ℚ) (p : P) (g : SGraph P A)
    (args : List (Nat ⊕ ℚ)) (a : A) : Except ApplyErr (ApplyRes P A) :=
  match args.head? with
  | none => Except.ok (ApplyRes.num (fwd p [] a))
  | some (.inr _) =>
    if args.all (fun x => x.isRight) then
      Except.ok (ApplyRes.num (fwd p (args.map rawVal) a))
    else
      Except.error ApplyErr.MixedArgumentKind
  | some (.inl _) =>
    if args.all (fun x => x.isLeft) then
      Except.ok (ApplyRes.node (applyNodeG fwd p g (args.map nodeIdx) a) (glen g))
    else
      Except.error ApplyErr.MixedArgumentKind

/-- Graphs obtainable through the two construction paths of the lifecycle:
wrapping a raw numeric input, or applying a primitive to existing nodes. -/
inductive Constructed : SGraph P A → Prop
  | nil : Constructed []
  | leaf {g : SGraph P A} (v : ℚ) (a : A) :
      Constructed g → Constructed (mkLeaf g v a)
  | app {g : SGraph P A} (fwd : P → List ℚ → A → ℚ) (p : P) (idxs : List Nat) (a : A) :
      Constructed g → (∀ j ∈ idxs, j < glen g) →
      Constructed (applyNodeG fwd p g idxs a)

/-- The structural (non-grad) fields of a node, used to state frame
conditions: `backward` and `reset_grad` may change only `grad`. -/
def nodeShape (nd : SNode P A) : ℚ × Option P × List Nat × A × Nat :=
  (nd.value, nd.producer, nd.parents, nd.aux, nd.seq)

/-- Two graphs agree on every structural field of every node. -/
def shapeEq (g h : SGraph P A) : Prop :=
  ∀ j, (getN g j).map nodeShape = (getN h j).map nodeShape

/-- The producer's backward rule returns one local partial derivative per
parent slot of node `c`. -/
abbrev arityOkAt (bwd : P → List ℚ → A → List ℚ) (g : SGraph P A) (c : Nat) : Prop :=
  (pdsOf bwd g c).length = (parentsOf g c).length

/-- The concrete primitives defined in the notebook
`creating_primitives.ipynb` that the claims exercise.  Each is a
`Function(name, forward, backward)` instance there. -/
inductive SPrim : Type
  | Double : SPrim
  | Pow : SPrim
  | Plus : SPrim
  | Sum : SPrim
  | Times : SPrim
deriving DecidableEq, Repr

/-- Forward rules of the notebook primitives.  The auxiliary argument is
the keyword configuration (the exponent `p` of `Pow`); it is ignored by
the other primitives.  `Double` is `lambda x: 2*x`, `Pow` is
`lambda x,p: x**p`, `Plus` is `lambda x,y: x+y`, `Sum` is
`lambda *args: sum(args)`, `Times` is `lambda x,y: x*y`.  A call at the
wrong arity returns 0 (the Python original would raise). -/
def sfwd : SPrim → List ℚ → ℤ → ℚ
  | .Double, [x], _ => 2 * x
  | .Pow, [x], p => x ^ p
  | .Plus, [x, y], _ => x + y
  | .Sum, xs, _ => xs.sum
  | .Times, [x, y], _ => x * y
  | _, _, _ => 0

/-- Backward rules of the notebook primitives, one local partial
derivative per positional argument: `Double` returns `[2]`, `Pow` returns
`[p*(x**(p-1))]`, `Plus` returns `[1,1]`, `Sum` returns `[1]*len(args)`,
`Times` returns `[y, x]`.  A call at the wrong arity returns []. -/
def sbwd : SPrim → List ℚ → ℤ → List ℚ
  | .Double, [_], _ => [2]
  | .Pow, [x], p => [(p : ℚ) * x ^ (p - 1)]
  | .Plus, [_, _], _ => [1, 1]
  | .Sum, xs, _ => List.replicate xs.length 1
  | .Times, [x, y], _ => [y, x]
  | _, _, _ => []

/-- The two-step chain from the notebook: `x = Scalar(v)`,
`y = Double(x)`, `z = Double(y)` (built here with leaf value 1).  Node 0
is `x`, node 1 is `y`, node 2 is `z`. -/
def gD : SGraph SPrim ℤ :=
  applyNodeG sfwd SPrim.Double (applyNodeG sfwd SPrim.Double (mkLeaf [] 1 0) [0] 0) [1] 0

/-- The polynomial composition from the notebook cell
`v = Scalar(3); w = Double(v); t = Times(w,v); p = Pow(t,p=2);`
`z = Sum(v,w,t,p)`, generalized over the leaf value `q`.  Nodes 0..4 are
`v, w, t, p, z`. -/
def gPoly (q : ℚ) : SGraph SPrim ℤ :=
  applyNodeG sfwd SPrim.Sum
    (applyNodeG sfwd SPrim.Pow
      (applyNodeG sfwd SPrim.Times
        (applyNodeG sfwd SPrim.Double (mkLeaf [] q 0) [0] 0)
        [1, 0] 0)
      [2] 2)
    [0, 1, 2, 3] 0

/-- Modelled from the spec: a `Scalar` supports ordering comparison
against a plain number, decided solely by its `value` (`__lt__`). -/
def sLtRaw (nd : SNode P A) (c : ℚ) : Bool := decide (nd.value < c)

/-- Modelled from the spec: `Scalar > number` comparison, decided solely
by `value` (`__gt__`). -/
def sGtRaw (nd : SNode P A) (c : ℚ) : Bool := decide (c < nd.value)

/-- Modelled from the spec: `Scalar > Scalar` comparison, decided solely
by the two `value` fields. -/
def sGtNode (s t : SNode P A) : Bool := decide (t.value < s.value)

/-! ### Basic lemmas about lookup and grad update -/

theorem getN_lt {g : SGraph P A} {i : Nat} (h : i < glen g) : ∃ nd, getN g i = some nd := by
  rcases List.getElem?_eq_some_iff.mpr ⟨h, rfl⟩ with h'
  exact ⟨_, h'⟩

theorem getN_eq_none_iff {g : SGraph P A} {i : Nat} : getN g i = none ↔ glen g ≤ i :=
  List.getElem?_eq_none_iff

theorem lt_glen_of_getN {g : SGraph P A} {i : Nat} {nd : SNode P A}
    (h : getN g i = some nd) : i < glen g := by
  by_contra hlt
  rw [getN_eq_none_iff.mpr (Nat.le_of_not_lt hlt)] at h
  exact Option.noConfusion h

theorem getN_setGradAt_other {g : SGraph P A} {i j : Nat} {v : Option ℚ} (h : j ≠ i) :
    getN (setGradAt g i v) j = getN g j := by
  unfold setGradAt
  cases hg : getN g i with
  | none => rfl
  | some nd => simpa [getN] using List.getElem?_set_ne (Ne.symm h)

theorem getN_setGradAt_self {g : SGraph P A} {i : Nat} {nd : SNode P A} {v : Option ℚ}
    (h : getN g i = some nd) :
    getN (setGradAt g i v) i = some (withGrad nd v) := by
  unfold setGradAt
  rw [h]
  simpa [getN] using List.getElem?_set_self (lt_glen_of_getN h)

theorem gradOf_setGradAt_self {g : SGraph P A} {i : Nat} {v : Option ℚ}
    (h : i < glen g) : gradOf (setGradAt g i v) i = v := by
  obtain ⟨nd, hnd⟩ := getN_lt h
  simp [gradOf, getN_setGradAt_self hnd, withGrad]

theorem gradOf_setGradAt_other {g : SGraph P A} {i j : Nat} {v : Option ℚ} (h : j ≠ i) :
    gradOf (setGradAt g i v) j = gradOf g j := by
  simp [gradOf, getN_setGradAt_other h]

theorem gradOf_addGrad_self {g : SGraph P A} {i : Nat} {v : ℚ} (h : i < glen g) :
    gradOf (addGrad g i v) i = some ((gradOf g i).getD 0 + v) :=
  gradOf_setGradAt_self h

theorem gradOf_addGrad_other {g : SGraph P A} {i j : Nat} {v : ℚ} (h : j ≠ i) :
    gradOf (addGrad g i v) j = gradOf g j :=
  gradOf_setGradAt_other h

/-! ### Shape preservation: grad mutation leaves all other fields intact -/

theorem shapeEq_refl (g : SGraph P A) : shapeEq g g := fun _ => rfl

theorem shapeEq_trans {g h k : SGraph P A} (h1 : shapeEq g h) (h2 : shapeEq h k) :
    shapeEq g k := fun j => (h1 j).trans (h2 j)

theorem shapeEq_setGradAt (g : SGraph P A) (i : Nat) (v : Option ℚ) :
    shapeEq (setGradAt g i v) g := by
  intro j
  by_cases hji : j = i
  · subst hji
    cases hg : getN g j with
    | none => simp [setGradAt, hg]
    | some nd => simp [getN_setGradAt_self hg, hg, withGrad, nodeShape]
  · rw [getN_setGradAt_other hji]

theorem shapeEq_addGrad (g : SGraph P A) (i : Nat) (v : ℚ) :
    shapeEq (addGrad g i v) g :=
  shapeEq_setGradAt g i _

theorem shapeEq_contribFold (g : SGraph P A) (prs : List (Nat × ℚ)) :
    shapeEq (contribFold g prs) g := by
  induction prs generalizing g with
  | nil => exact shapeEq_refl g
  | cons hd tl ih =>
      exact shapeEq_trans (ih (addGrad g hd.1 hd.2)) (shapeEq_addGrad g hd.1 hd.2)

theorem shapeEq_backwardStep (bwd : P → List ℚ → A → List ℚ) (g : SGraph P A) (c : Nat) :
    shapeEq (backwardStep bwd g c) g := by
  unfold backwardStep
  cases hg : getN g c with
  | none => exact shapeEq_refl g
  | some nd =>
      cases hp : nd.producer with
      | none => simpa [hp] using shapeEq_refl g
      | some p =>
          simpa [hp] using
            shapeEq_contribFold g
              (nd.parents.zip ((bwd p (nd.parents.map (valueOf g)) nd.aux).map
                fun d => d * (nd.grad.getD 0)))

theorem shapeEq_foldl_backwardStep (bwd : P → List ℚ → A → List ℚ)
    (L : List Nat) (g : SGraph P A) :
    shapeEq (L.foldl (backwardStep bwd) g) g := by
  induction L generalizing g with
  | nil => exact shapeEq_refl g
  | cons c T ih =>
      exact shapeEq_trans (ih (backwardStep bwd g c)) (shapeEq_backwardStep bwd g c)

theorem shapeEq_foldl_setnone (L : List Nat) (g : SGraph P A) :
    shapeEq (L.foldl (fun h i => setGradAt h i none) g) g := by
  induction L generalizing g with
  | nil => exact shapeEq_refl g
  | cons c T ih =>
      exact shapeEq_trans (ih (setGradAt g c none)) (shapeEq_setGradAt g c none)

theorem shapeEq_backward (bwd : P → List ℚ → A → List ℚ) (g : SGraph P A) (root : Nat) :
    shapeEq (backward bwd g root) g :=
  shapeEq_trans (shapeEq_foldl_backwardStep bwd _ _) (shapeEq_setGradAt g root _)

theorem shapeEq_reset_grad (g : SGraph P A) (root : Nat) :
    shapeEq (reset_grad g root) g :=
  shapeEq_foldl_setnone _ g

/-! ### Consequences of shape equality -/

theorem glen_of_shapeEq {g h : SGraph P A} (hs : shapeEq g h) : glen g = glen h := by
  have hiff : ∀ j, j < glen g ↔ j < glen h := by
    intro j
    constructor
    · intro hj
      obtain ⟨nd, hnd⟩ := getN_lt hj
      have := hs j
      rw [hnd] at this
      cases hh : getN h j with
      | none => rw [hh] at this; exact Option.noConfusion this
      | some nd' => exact lt_glen_of_getN hh
    · intro hj
      obtain ⟨nd, hnd⟩ := getN_lt hj
      have := hs j
      rw [hnd] at this
      cases hh : getN g j with
      | none => rw [hh] at this; exact Option.noConfusion this
      | some nd' => exact lt_glen_of_getN hh
  rcases Nat.lt_trichotomy (glen g) (glen h) with h1 | h1 | h1
  · exact absurd ((hiff (glen g)).mpr h1) (Nat.lt_irrefl _)
  · exact h1
  · exact absurd ((hiff (glen h)).mp h1) (Nat.lt_irrefl _)

theorem valueOf_of_shapeEq {g h : SGraph P A} (hs : shapeEq g h) (i : Nat) :
    valueOf g i = valueOf h i := by
  have := hs i
  unfold valueOf
  cases hg : getN g i with
  | none =>
      rw [hg] at this
      cases hh : getN h i with
      | none => rfl
      | some nd' => rw [hh] at this; exact Option.noConfusion this
  | some nd =>
      rw [hg] at this
      cases hh : getN h i with
      | none => rw [hh] at this; exact Option.noConfusion this
      | some nd' =>
          rw [hh] at this
          have : nodeShape nd = nodeShape nd' := Option.some_injective _ this
          simp [nodeShape] at this
          simp [this.1]

theorem parentsOf_of_shapeEq {g h : SGraph P A} (hs : shapeEq g h) (i : Nat) :
    parentsOf g i = parentsOf h i := by
  have := hs i
  unfold parentsOf
  cases hg : getN g i with
  | none =>
      rw [hg] at this
      cases hh : getN h i with
      | none => rfl
      | some nd' => rw [hh] at this; exact Option.noConfusion this
  | some nd =>
      rw [hg] at this
      cases hh : getN h i with
      | none => rw [hh] at this; exact Option.noConfusion this
      | some nd' =>
          rw [hh] at this
          have : nodeShape nd = nodeShape nd' := Option.some_injective _ this
          simp [nodeShape] at this
          simp [this.2.2.1]

theorem producerOf_of_shapeEq {g h : SGraph P A} (hs : shapeEq g h) (i : Nat) :
    producerOf g i = producerOf h i := by
  have := hs i
  unfold producerOf
  cases hg : getN g i with
  | none =>
      rw [hg] at this
      cases hh : getN h i with
      | none => rfl
      | some nd' => rw [hh] at this; exact Option.noConfusion this
  | some nd =>
      rw [hg] at this
      cases hh : getN h i with
      | none => rw [hh] at this; exact Option.noConfusion this
      | some nd' =>
          rw [hh] at this
          have : nodeShape nd = nodeShape nd' := Option.some_injective _ this
          simp [nodeShape] at this
          simp [this.2.1]

theorem seqOf_of_shapeEq {g h : SGraph P A} (hs : shapeEq g h) (i : Nat) :
    seqOf g i = seqOf h i := by
  have := hs i
  unfold seqOf
  cases hg : getN g i with
  | none =>
      rw [hg] at this
      cases hh : getN h i with
      | none => rfl
      | some nd' => rw [hh] at this; exact Option.noConfusion this
  | some nd =>
      rw [hg] at this
      cases hh : getN h i with
      | none => rw [hh] at this; exact Option.noConfusion this
      | some nd' =>
          rw [hh] at this
          have : nodeShape nd = nodeShape nd' := Option.some_injective _ this
          simp [nodeShape] at this
          simp [this.2.2.2.2]

theorem pdsOf_of_shapeEq (bwd : P → List ℚ → A → List ℚ) {g h : SGraph P A}
    (hs : shapeEq g h) (c : Nat) : pdsOf bwd g c = pdsOf bwd h c := by
  have hsh := hs c
  cases hg : getN g c with
  | none =>
      cases hh : getN h c with
      | none => simp [pdsOf, hg, hh]
      | some nd' => rw [hg, hh] at hsh; exact Option.noConfusion hsh
  | some nd =>
      cases hh : getN h c with
      | none => rw [hg, hh] at hsh; exact Option.noConfusion hsh
      | some nd' =>
          rw [hg, hh] at hsh
          have heq : nodeShape nd = nodeShape nd' := Option.some_injective _ hsh
          simp [nodeShape] at heq
          obtain ⟨hval, hprod, hpar, haux, hseq⟩ := heq
          have hv : ∀ q, valueOf g q = valueOf h q := valueOf_of_shapeEq hs
          simp only [pdsOf, hg, hh, hprod, hpar, haux]
          cases nd'.producer with
          | none => rfl
          | some p => simp [List.map_congr_left fun q _ => hv q]

theorem slotSum_of_shapeEq (bwd : P → List ℚ → A → List ℚ) {g h : SGraph P A}
    (hs : shapeEq g h) (c j : Nat) : slotSum bwd g c j = slotSum bwd h c j := by
  unfold slotSum
  rw [pdsOf_of_shapeEq bwd hs, parentsOf_of_shapeEq hs]

/-! ### Well-formedness -/

theorem WF.spec {g : SGraph P A} (hwf : WF g) {i : Nat} {nd : SNode P A}
    (h : getN g i = some nd) :
    nd.seq = i ∧ (∀ p ∈ nd.parents, p < i) ∧ (nd.producer = none → nd.parents = []) := by
  have hi : i < glen g := lt_glen_of_getN h
  have hall := List.all_eq_true.mp hwf i (List.mem_range.mpr hi)
  rw [h] at hall
  simp only [Bool.and_eq_true, List.all_eq_true, beq_iff_eq, decide_eq_true_eq,
    Bool.or_eq_true, Option.isSome_iff_exists, List.isEmpty_iff] at hall
  refine ⟨hall.1.1, hall.1.2, ?_⟩
  intro hnone
  rcases hall.2 with ⟨p, hp⟩ | hemp
  · rw [hnone] at hp; exact Option.noConfusion hp
  · exact hemp

theorem WF.parents_lt {g : SGraph P A} (hwf : WF g) {i p : Nat}
    (hp : p ∈ parentsOf g i) : p < i := by
  unfold parentsOf at hp
  cases hg : getN g i with
  | none => rw [hg] at hp; simp at hp
  | some nd =>
      rw [hg] at hp
      exact (WF.spec hwf hg).2.1 p (by simpa using hp)

theorem WF.seq_eq {g : SGraph P A} (hwf : WF g) (i : Nat) : seqOf g i = i := by
  unfold seqOf
  cases hg : getN g i with
  | none => rfl
  | some nd => simp [(WF.spec hwf hg).1]

theorem WF.leaf_no_parents {g : SGraph P A} (hwf : WF g) {i : Nat}
    (hp : producerOf g i = none) (hi : i < glen g) : parentsOf g i = [] := by
  obtain ⟨nd, hnd⟩ := getN_lt hi
  unfold producerOf at hp
  rw [hnd] at hp
  simp only [Option.bind_eq_none] at hp
  unfold parentsOf
  rw [hnd]
  exact (WF.spec hwf hnd).2.2 (hp nd rfl)

/-! ### Reachability -/

theorem reachF_mono {g : SGraph P A} {fuel a b : Nat} (h : reachF g fuel a b = true) :
    reachF g (fuel + 1) a b = true := by
  induction fuel generalizing a with
  | zero => exact absurd h (by simp [reachF])
  | succ n ih =>
      rw [reachF] at h
      rw [reachF]
      rcases Bool.or_eq_true_iff.mp h with h1 | h1
      · exact Bool.or_eq_true_iff.mpr (Or.inl h1)
      · rcases List.any_eq_true.mp h1 with ⟨p, hp, hr⟩
        exact Bool.or_eq_true_iff.mpr (Or.inr (List.any_eq_true.mpr ⟨p, hp, ih hr⟩))

theorem reachF_of_le {g : SGraph P A} {f1 f2 a b : Nat} (hle : f1 ≤ f2)
    (h : reachF g f1 a b = true) : reachF g f2 a b = true := by
  induction f2 with
  | zero => exact Nat.le_zero.mp hle ▸ h
  | succ n ih =>
      rcases Nat.lt_or_ge f1 (n + 1) with h1 | h1
      · exact reachF_mono (ih (Nat.lt_succ_iff.mp h1))
      · exact Nat.le_antisymm hle h1 ▸ h

theorem reachF_sound {g : SGraph P A} {fuel a b : Nat}
    (h : reachF g fuel a b = true) : Reaches g a b := by
  induction fuel generalizing a with
  | zero => exact absurd h (by simp [reachF])
  | succ n ih =>
      rw [reachF] at h
      rcases Bool.or_eq_true_iff.mp h with h1 | h1
      · have hab : a = b := by simpa using h1
        exact hab ▸ Reaches.refl a
      · rcases List.any_eq_true.mp h1 with ⟨p, hp, hr⟩
        exact Reaches.step hp (ih hr)

theorem reachF_complete {g : SGraph P A} (hwf : WF g) {a b : Nat}
    (h : Reaches g a b) : ∀ fuel, a < fuel → reachF g fuel a b = true := by
  induction h with
  | refl c =>
      intro fuel hf
      cases fuel with
      | zero => exact absurd hf (Nat.not_lt_zero c)
      | succ n => simp [reachF]
  | @step c p b hp _ ih =>
      intro fuel hf
      cases fuel with
      | zero => exact absurd hf (Nat.not_lt_zero c)
      | succ n =>
          rw [reachF]
          refine Bool.or_eq_true_iff.mpr (Or.inr (List.any_eq_true.mpr ⟨p, hp, ?_⟩))
          exact ih n (Nat.lt_of_lt_of_le (WF.parents_lt hwf hp) (Nat.lt_succ_iff.mp hf))

theorem reachb_iff {g : SGraph P A} (hwf : WF g) {a b : Nat} :
    reachb g a b = true ↔ Reaches g a b :=
  ⟨reachF_sound, fun h => reachF_complete hwf h (a + 1) (Nat.lt_succ_self a)⟩

theorem Reaches.le {g : SGraph P A} (hwf : WF g) {a b : Nat}
    (h : Reaches g a b) : b ≤ a := by
  induction h with
  | refl c => exact Nat.le_refl c
  | @step c p b hp _ ih => exact Nat.le_trans ih (Nat.le_of_lt (WF.parents_lt hwf hp))

theorem Reaches.trans {g : SGraph P A} {a b c : Nat}
    (h1 : Reaches g a b) (h2 : Reaches g b c) : Reaches g a c := by
  induction h1 with
  | refl => exact h2
  | step hp _ ih => exact Reaches.step hp (ih h2)

theorem Reaches.exists_consumer {g : SGraph P A} {a b : Nat}
    (h : Reaches g a b) (hne : b ≠ a) :
    ∃ c, Reaches g a c ∧ b ∈ parentsOf g c := by
  induction h with
  | refl c => exact absurd rfl hne
  | @step c p b hp hr ih =>
      by_cases hbp : b = p
      · exact ⟨c, Reaches.refl c, hbp ▸ hp⟩
      · obtain ⟨d, hd1, hd2⟩ := ih hbp
        exact ⟨d, Reaches.step hp hd1, hd2⟩

/-! ### Properties of `trace` -/

theorem mem_trace_iff {g : SGraph P A} (hwf : WF g) {root : Nat}
    (hroot : root < glen g) {i : Nat} : i ∈ trace g root ↔ Reaches g root i := by
  unfold trace
  rw [List.mem_filter, List.mem_reverse, List.mem_range]
  constructor
  · intro ⟨_, hr⟩
    exact (reachb_iff hwf).mp hr
  · intro hr
    exact ⟨Nat.lt_of_le_of_lt (Reaches.le hwf hr) hroot, (reachb_iff hwf).mpr hr⟩

theorem trace_pairwise_gt (g : SGraph P A) (root : Nat) :
    List.Pairwise (· > ·) (trace g root) := by
  unfold trace
  refine List.Pairwise.filter _ ?_
  rw [List.pairwise_reverse]
  exact List.pairwise_lt_range (glen g)

theorem trace_lt_glen {g : SGraph P A} {root i : Nat} (h : i ∈ trace g root) :
    i < glen g := by
  unfold trace at h
  rw [List.mem_filter, List.mem_reverse, List.mem_range] at h
  exact h.1

theorem root_mem_trace {g : SGraph P A} {root : Nat} (hroot : root < glen g) :
    root ∈ trace g root := by
  unfold trace
  rw [List.mem_filter, List.mem_reverse, List.mem_range]
  exact ⟨hroot, by simp [reachb, reachF]⟩

theorem trace_le_root {g : SGraph P A} (hwf : WF g) {root i : Nat}
    (hroot : root < glen g) (h : i ∈ trace g root) : i ≤ root :=
  Reaches.le hwf ((mem_trace_iff hwf hroot).mp h)

theorem parent_mem_trace {g : SGraph P A} (hwf : WF g) {root c p : Nat}
    (hroot : root < glen g) (hc : c ∈ trace g root) (hp : p ∈ parentsOf g c) :
    p ∈ trace g root :=
  (mem_trace_iff hwf hroot).mpr
    (Reaches.trans ((mem_trace_iff hwf hroot).mp hc) (Reaches.step hp (Reaches.refl p)))

theorem reachF_congr {g h : SGraph P A}
    (hpar : ∀ i, parentsOf g i = parentsOf h i) :
    ∀ fuel a b, reachF g fuel a b = reachF h fuel a b := by
  intro fuel
  induction fuel with
  | zero => intro a b; rfl
  | succ n ih =>
      intro a b
      rw [reachF, reachF, hpar a]
      congr 1
      induction parentsOf h a with
      | nil => rfl
      | cons x xs ihl => simp only [List.any_cons, ih x b, ihl]

theorem trace_of_shapeEq {g h : SGraph P A} (hs : shapeEq g h) (root : Nat) :
    trace g root = trace h root := by
  unfold trace
  rw [glen_of_shapeEq hs]
  exact List.filter_congr fun i _ => by
    unfold reachb
    rw [reachF_congr (parentsOf_of_shapeEq hs) (root + 1) root i]

/-! ### The gradient-accumulation fold -/

theorem gradOf_contribFold (g : SGraph P A) (prs : List (Nat × ℚ))
    (hin : ∀ pq ∈ prs, pq.1 < glen g) (j : Nat) :
    gradOf (contribFold g prs) j =
      if j ∈ prs.map Prod.fst then
        some ((gradOf g j).getD 0 + ((prs.filter fun pq => pq.1 == j).map Prod.snd).sum)
      else gradOf g j := by
  induction prs generalizing g with
  | nil => simp [contribFold]
  | cons hd tl ih =>
      obtain ⟨a, v⟩ := hd
      have hstep : contribFold g ((a, v) :: tl) = contribFold (addGrad g a v) tl := rfl
      have hlen : glen (addGrad g a v) = glen g :=
        glen_of_shapeEq (shapeEq_addGrad g a v)
      have hin' : ∀ pq ∈ tl, pq.1 < glen (addGrad g a v) := by
        intro pq hpq
        rw [hlen]
        exact hin pq (List.mem_cons_of_mem _ hpq)
      rw [hstep, ih (addGrad g a v) hin' ]
      by_cases hja : j = a
      · subst hja
        have hj : gradOf (addGrad g j v) j = some ((gradOf g j).getD 0 + v) :=
          gradOf_addGrad_self (hin (j, v) (List.mem_cons_self _ _))
        by_cases hmem : j ∈ tl.map Prod.fst
        · simp only [hmem, if_true, List.map_cons, List.mem_cons, or_true, if_true, hj]
          simp only [List.filter_cons, beq_self_eq_true, if_true, List.map_cons, List.sum_cons]
          simp [add_assoc]
        · simp only [hmem, if_false, List.map_cons, List.mem_cons, or_true, if_true, hj]
          have hfil : (tl.filter fun pq => pq.1 == j) = [] := by
            rw [List.filter_eq_nil_iff]
            intro pq hpq
            simp only [beq_iff_eq]
            intro heq
            exact hmem (List.mem_map.mpr ⟨pq, hpq, heq⟩)
          simp [List.filter_cons, hfil]
      · have hj : gradOf (addGrad g a v) j = gradOf g j :=
          gradOf_addGrad_other hja
        have hhd : ((a, v).1 == j) = false := by simpa using Ne.symm hja
        by_cases hmem : j ∈ tl.map Prod.fst
        · simp [hmem, hja, hj, List.filter_cons, hhd]
        · simp [hmem, hja, hj, List.filter_cons, hhd]

theorem gradOf_contribFold_not_mem {g : SGraph P A} {prs : List (Nat × ℚ)} {j : Nat}
    (hj : j ∉ prs.map Prod.fst) : gradOf (contribFold g prs) j = gradOf g j := by
  induction prs generalizing g with
  | nil => rfl
  | cons hd tl ih =>
      have hne : j ≠ hd.1 := by
        intro he
        exact hj (List.mem_map.mpr ⟨hd, List.mem_cons_self _ _, he.symm⟩)
      have htl : j ∉ tl.map Prod.fst := fun hm =>
        hj (by rw [List.map_cons]; exact List.mem_cons_of_mem _ hm)
      calc gradOf (contribFold (addGrad g hd.1 hd.2) tl) j
          = gradOf (addGrad g hd.1 hd.2) j := ih htl
        _ = gradOf g j := gradOf_addGrad_other hne

theorem parentsOf_eq_of_getN {g : SGraph P A} {c : Nat} {nd : SNode P A}
    (h : getN g c = some nd) : parentsOf g c = nd.parents := by
  simp [parentsOf, h]

theorem slotSum_eq_zero (bwd : P → List ℚ → A → List ℚ) {g : SGraph P A} {c j : Nat}
    (hj : j ∉ parentsOf g c) : slotSum bwd g c j = 0 := by
  unfold slotSum
  have hfil : (((parentsOf g c).zip (pdsOf bwd g c)).filter fun pq => pq.1 == j) = [] := by
    rw [List.filter_eq_nil_iff]
    intro pq hpq
    simp only [beq_iff_eq]
    intro he
    exact hj (he ▸ (List.of_mem_zip hpq).1)
  rw [hfil]
  rfl

theorem gradOf_backwardStep_not_parent (bwd : P → List ℚ → A → List ℚ)
    {G h : SGraph P A} (hs : shapeEq h G) {c j : Nat}
    (hj : j ∉ parentsOf G c) : gradOf (backwardStep bwd h c) j = gradOf h j := by
  unfold backwardStep
  cases hg : getN h c with
  | none => rfl
  | some nd =>
      cases hp : nd.producer with
      | none => simp [hp]
      | some p =>
          simp only [hp]
          refine gradOf_contribFold_not_mem ?_
          intro hm
          rcases List.mem_map.mp hm with ⟨pq, hpq, he⟩
          have h1 : pq.1 ∈ nd.parents := (List.of_mem_zip hpq).1
          have h2 : parentsOf h c = nd.parents := parentsOf_eq_of_getN hg
          apply hj
          rw [← parentsOf_of_shapeEq hs c, h2]
          exact he ▸ h1

theorem gradOf_backwardStep_parent (bwd : P → List ℚ → A → List ℚ)
    {G h : SGraph P A} (hs : shapeEq h G) (hwfG : WF G) {c j : Nat}
    (har : arityOkAt bwd G c) (hj : j ∈ parentsOf G c) :
    gradOf (backwardStep bwd h c) j =
      some ((gradOf h j).getD 0 + slotSum bwd G c j * (gradOf h c).getD 0) := by
  have hjh : j ∈ parentsOf h c := by rw [parentsOf_of_shapeEq hs c]; exact hj
  cases hg : getN h c with
  | none =>
      rw [parentsOf, hg] at hjh
      simp at hjh
  | some nd =>
      have hpar : parentsOf h c = nd.parents := parentsOf_eq_of_getN hg
      have hparG : parentsOf G c = nd.parents := by
        rw [← parentsOf_of_shapeEq hs c]; exact hpar
      cases hp : nd.producer with
      | none =>
          have hprodG : producerOf G c = none := by
            rw [← producerOf_of_shapeEq hs c]
            simp [producerOf, hg, hp]
          have hcG : c < glen G := by
            rw [← glen_of_shapeEq hs]
            exact lt_glen_of_getN hg
          have : parentsOf G c = [] := WF.leaf_no_parents hwfG hprodG hcG
          rw [this] at hj
          simp at hj
      | some p =>
          have hpds : pdsOf bwd G c = bwd p (nd.parents.map (valueOf h)) nd.aux := by
            rw [← pdsOf_of_shapeEq bwd hs c]
            simp [pdsOf, hg, hp]
          have hgc : gradOf h c = nd.grad := by simp [gradOf, hg]
          have hlen : (pdsOf bwd G c).length = nd.parents.length :=
            har.trans (congrArg List.length hparG)
          unfold backwardStep
          rw [hg]
          simp only [hp]
          set pds := bwd p (nd.parents.map (valueOf h)) nd.aux with hpdsdef
          set gc := nd.grad.getD 0 with hgcdef
          have hzip : nd.parents.zip (pds.map fun d => d * gc)
              = ((nd.parents.zip pds).map fun pq => (pq.1, pq.2 * gc)) := by
            rw [List.zip_map_right]
            rfl
          have hin : ∀ pq ∈ nd.parents.zip (pds.map fun d => d * gc), pq.1 < glen h := by
            intro pq hpq
            have h1 : pq.1 ∈ nd.parents := (List.of_mem_zip hpq).1
            have h2 : pq.1 < c := WF.parents_lt hwfG (hparG ▸ h1)
            exact Nat.lt_trans h2 (lt_glen_of_getN hg)
          rw [gradOf_contribFold h _ hin j]
          have hmem : j ∈ (nd.parents.zip (pds.map fun d => d * gc)).map Prod.fst := by
            rw [List.map_fst_zip]
            · exact hparG ▸ hj
            · rw [List.length_map, ← hpds, hlen]
          rw [if_pos hmem]
          congr 1
          have hsum :
              (((nd.parents.zip (pds.map fun d => d * gc)).filter
                fun pq => pq.1 == j).map Prod.snd).sum
              = ((((nd.parents.zip pds).filter fun pq => pq.1 == j).map
                  Prod.snd).sum) * gc := by
            rw [hzip, List.filter_map]
            have hpred : ((fun pq : Nat × ℚ => pq.1 == j) ∘ fun pq : Nat × ℚ => (pq.1, pq.2 * gc))
                = fun pq : Nat × ℚ => pq.1 == j := rfl
            rw [hpred, List.map_map]
            have hcomp : (Prod.snd ∘ fun pq : Nat × ℚ => (pq.1, pq.2 * gc))
                = fun pq : Nat × ℚ => pq.2 * gc := rfl
            rw [hcomp]
            exact List.sum_map_mul_right _ _ _
          rw [hsum, hgc]
          unfold slotSum
          rw [hparG, hpds]

theorem foldl_backwardStep_grads (bwd : P → List ℚ → A → List ℚ)
    {G : SGraph P A} (hwfG : WF G) :
    ∀ (L : List Nat) (h : SGraph P A), shapeEq h G →
      List.Pairwise (· > ·) L →
      (∀ c ∈ L, arityOkAt bwd G c) →
      ∀ j,
        ((∀ c ∈ L, j ∉ parentsOf G c) →
           gradOf (L.foldl (backwardStep bwd) h) j = gradOf h j) ∧
        ((∃ c ∈ L, j ∈ parentsOf G c) →
           gradOf (L.foldl (backwardStep bwd) h) j =
             some ((gradOf h j).getD 0 +
               (L.map fun c => slotSum bwd G c j *
                 ((gradOf (L.foldl (backwardStep bwd) h) c).getD 0)).sum)) := by
  intro L
  induction L with
  | nil =>
      intro h hs hpw har j
      exact ⟨fun _ => rfl, fun hex => by simp at hex⟩
  | cons c T ih =>
      intro h hs hpw har j
      have hfold : (c :: T).foldl (backwardStep bwd) h
          = T.foldl (backwardStep bwd) (backwardStep bwd h c) := rfl
      set h' := backwardStep bwd h c with hh'
      have hs' : shapeEq h' G := shapeEq_trans (shapeEq_backwardStep bwd h c) hs
      rw [List.pairwise_cons] at hpw
      obtain ⟨hcT, hT⟩ := hpw
      have harT : ∀ d ∈ T, arityOkAt bwd G d := fun d hd =>
        har d (List.mem_cons_of_mem _ hd)
      have harc : arityOkAt bwd G c := har c (List.mem_cons_self _ _)
      -- the grad of c is frozen during the whole fold
      have hfrz : gradOf ((c :: T).foldl (backwardStep bwd) h) c = gradOf h c := by
        rw [hfold]
        have h1 : gradOf (T.foldl (backwardStep bwd) h') c = gradOf h' c := by
          refine (ih h' hs' hT harT c).1 ?_
          intro d hd hc
          exact absurd (WF.parents_lt hwfG hc) (Nat.lt_asymm (hcT d hd))
        have h2 : gradOf h' c = gradOf h c := by
          refine gradOf_backwardStep_not_parent bwd hs ?_
          intro hc
          exact absurd (WF.parents_lt hwfG hc) (Nat.lt_irrefl c)
        exact h1.trans h2
      constructor
      · intro hnot
        rw [hfold]
        have h1 : gradOf (T.foldl (backwardStep bwd) h') j = gradOf h' j :=
          (ih h' hs' hT harT j).1 fun d hd => hnot d (List.mem_cons_of_mem _ hd)
        have h2 : gradOf h' j = gradOf h j :=
          gradOf_backwardStep_not_parent bwd hs (hnot c (List.mem_cons_self _ _))
        exact h1.trans h2
      · intro hex
        rw [List.map_cons, List.sum_cons, hfrz, hfold]
        by_cases hjc : j ∈ parentsOf G c
        · have hstep : gradOf h' j
              = some ((gradOf h j).getD 0 + slotSum bwd G c j * (gradOf h c).getD 0) :=
            gradOf_backwardStep_parent bwd hs hwfG harc hjc
          by_cases hexT : ∃ d ∈ T, j ∈ parentsOf G d
          · have h1 := (ih h' hs' hT harT j).2 hexT
            rw [h1, hstep]
            simp only [Option.getD_some]
            rw [add_assoc]
          · have h1 : gradOf (T.foldl (backwardStep bwd) h') j = gradOf h' j :=
              (ih h' hs' hT harT j).1 fun d hd hjd => hexT ⟨d, hd, hjd⟩
            have hzero : (T.map fun d => slotSum bwd G d j *
                ((gradOf (T.foldl (backwardStep bwd) h') d).getD 0)).sum = 0 := by
              refine List.sum_eq_zero ?_
              intro x hx
              rcases List.mem_map.mp hx with ⟨d, hd, hdx⟩
              have : slotSum bwd G d j = 0 :=
                slotSum_eq_zero bwd fun hjd => hexT ⟨d, hd, hjd⟩
              rw [← hdx, this, zero_mul]
            rw [h1, hstep, hzero, add_zero]
        · have hexT : ∃ d ∈ T, j ∈ parentsOf G d := by
            rcases hex with ⟨d, hd, hjd⟩
            rcases List.mem_cons.mp hd with rfl | hd'
            · exact absurd hjd hjc
            · exact ⟨d, hd', hjd⟩
          have h1 := (ih h' hs' hT harT j).2 hexT
          have h2 : gradOf h' j = gradOf h j :=
            gradOf_backwardStep_not_parent bwd hs hjc
          have hzc : slotSum bwd G c j = 0 := slotSum_eq_zero bwd hjc
          rw [h1, h2, hzc, zero_mul, zero_add]

/-- C1. After `backward(root)` on a graph whose reachable grads start
unset: `root.grad` is set to `1.0` (the seed), and every other node
reachable from `root` ends with grad equal to the sum, over all of its
consumers in the traced graph, of that consumer's producer's local
partial derivative for the corresponding parent slot (evaluated at the
parents' values) multiplied by the consumer's final grad — an unset grad
is treated as `0.0` before the first contribution.  `slotSum` already
sums over all slots of a consumer holding the node, and it vanishes for
non-consumers, so the right-hand sum ranges over exactly the consumers in
the traced graph; the characterization is a sum over the reachable set
and is therefore independent of the traversal order used to collect it. -/
theorem backward_grad_accumulation (bwd : P → List ℚ → A → List ℚ)
    (g : SGraph P A) (root : Nat) (hwf : WF g) (hroot : root < glen g)
    (hinit : ∀ i ∈ trace g root, gradOf g i = none)
    (har : ∀ c ∈ trace g root, arityOkAt bwd g c) :
    gradOf (backward bwd g root) root = some 1 ∧
    ∀ i ∈ trace g root, i ≠ root →
      gradOf (backward bwd g root) i =
        some (((trace g root).map fun c => slotSum bwd g c i *
          ((gradOf (backward bwd g root) c).getD 0)).sum) := by
  have hs0 : shapeEq (setGradAt g root (some 1)) g := shapeEq_setGradAt g root _
  have hmain := foldl_backwardStep_grads bwd hwf (trace g root)
    (setGradAt g root (some 1)) hs0 (trace_pairwise_gt g root) har
  constructor
  · have h1 := (hmain root).1
    have hnp : ∀ c ∈ trace g root, root ∉ parentsOf g c := by
      intro c hc hp
      have h2 : root < c := WF.parents_lt hwf hp
      have h3 : c ≤ root := trace_le_root hwf hroot hc
      exact absurd (Nat.lt_of_lt_of_le h2 h3) (Nat.lt_irrefl root)
    calc gradOf (backward bwd g root) root
        = gradOf (setGradAt g root (some 1)) root := h1 hnp
      _ = some 1 := gradOf_setGradAt_self hroot
  · intro i hi hne
    have hreach : Reaches g root i := (mem_trace_iff hwf hroot).mp hi
    obtain ⟨c, hrc, hpc⟩ := Reaches.exists_consumer hreach hne
    have hc : c ∈ trace g root := (mem_trace_iff hwf hroot).mpr hrc
    have h2 := (hmain i).2 ⟨c, hc, hpc⟩
    have hzero : gradOf (setGradAt g root (some 1)) i = none := by
      rw [gradOf_setGradAt_other hne]
      exact hinit i hi
    have hbw : backward bwd g root
        = (trace g root).foldl (backwardStep bwd) (setGradAt g root (some 1)) := rfl
    rw [hbw, h2, hzero]
    simp

/-- C1 witness: the two-step `Double` chain `z = Double(Double(x))`; the
backward pass seeds `z.grad = 1` and accumulates `y.grad = 2`,
`x.grad = 4`, matching the consumer-sum characterization. -/
theorem backward_grad_accumulation_witness :
    gradOf (backward sbwd gD 2) 2 = some 1 ∧
    ∀ i ∈ trace gD 2, i ≠ 2 →
      gradOf (backward sbwd gD 2) i =
        some (((trace gD 2).map fun c => slotSum sbwd gD c i *
          ((gradOf (backward sbwd gD 2) c).getD 0)).sum) :=
  backward_grad_accumulation sbwd gD 2 (by decide) (by decide)
    (by decide) (by decide)

theorem pairwise_gt_indexOf {l : List Nat} (hpw : List.Pairwise (· > ·) l)
    {a b : Nat} (ha : a ∈ l) (hb : b ∈ l) (hba : b < a) :
    l.indexOf a < l.indexOf b := by
  induction l with
  | nil => simp at ha
  | cons x xs ih =>
      rw [List.pairwise_cons] at hpw
      obtain ⟨hx, hxs⟩ := hpw
      by_cases hax : a = x
      · have hbx : x ≠ b := by
          intro he
          rw [← hax] at he
          exact absurd (he ▸ hba) (Nat.lt_irrefl _)
        rw [hax, List.indexOf_cons_self, List.indexOf_cons_ne _ hbx]
        exact Nat.succ_pos _
      · have ha' : a ∈ xs := by
          rcases List.mem_cons.mp ha with h | h
          · exact absurd h hax
          · exact h
        have hbx : b ≠ x := by
          intro he
          subst he
          exact absurd (hx a ha') (Nat.lt_asymm hba)
        have hb' : b ∈ xs := by
          rcases List.mem_cons.mp hb with h | h
          · exact absurd h hbx
          · exact h
        rw [List.indexOf_cons_ne _ (Ne.symm hax), List.indexOf_cons_ne _ (Ne.symm hbx)]
        exact Nat.succ_lt_succ (ih hxs ha' hb')

theorem filter_eq_singleton {l : List Nat} {p : Nat → Bool} {root : Nat}
    (hnd : l.Nodup) (hmem : root ∈ l) (hiff : ∀ i ∈ l, p i = true ↔ i = root) :
    l.filter p = [root] := by
  induction l with
  | nil => simp at hmem
  | cons x xs ih =>
      rw [List.nodup_cons] at hnd
      obtain ⟨hx, hxs⟩ := hnd
      by_cases hrx : root = x
      · subst hrx
        have hpx : p root = true := (hiff root (List.mem_cons_self _ _)).mpr rfl
        have hnil : xs.filter p = [] := by
          rw [List.filter_eq_nil_iff]
          intro i hi hpi
          have : i = root := (hiff i (List.mem_cons_of_mem _ hi)).mp hpi
          exact hx (this ▸ hi)
        rw [List.filter_cons, if_pos hpx, hnil]
      · have hmem' : root ∈ xs := by
          rcases List.mem_cons.mp hmem with h | h
          · exact absurd h hrx
          · exact h
        have hpx : p x = false := by
          rcases hb : p x with _ | _
          · rfl
          · exact absurd ((hiff x (List.mem_cons_self _ _)).mp hb).symm hrx
        rw [List.filter_cons, if_neg (by simp [hpx])]
        exact ih hxs hmem' fun i hi => hiff i (List.mem_cons_of_mem _ hi)

/-- C2. `trace(root)` returns exactly the nodes reachable from `root` by
following `parents` transitively (including `root` itself), deduplicated,
in strictly descending `seq` order; every parent of a traced node appears
in the trace, strictly after the node itself; and a root with no parents
yields the one-element sequence `[root]`. -/
theorem trace_exactness (g : SGraph P A) (root : Nat)
    (hwf : WF g) (hroot : root < glen g) :
    (∀ i, i ∈ trace g root ↔ Reaches g root i) ∧
    List.Pairwise (fun a b => seqOf g b < seqOf g a) (trace g root) ∧
    (∀ m ∈ trace g root, ∀ p ∈ parentsOf g m,
      p ∈ trace g root ∧ (trace g root).indexOf m < (trace g root).indexOf p) ∧
    (parentsOf g root = [] → trace g root = [root]) := by
  refine ⟨fun i => mem_trace_iff hwf hroot, ?_, ?_, ?_⟩
  · refine (trace_pairwise_gt g root).imp ?_
    intro a b hab
    rw [hwf.seq_eq a, hwf.seq_eq b]
    exact hab
  · intro m hm p hp
    have hpt : p ∈ trace g root := parent_mem_trace hwf hroot hm hp
    exact ⟨hpt, pairwise_gt_indexOf (trace_pairwise_gt g root) hm hpt
      (WF.parents_lt hwf hp)⟩
  · intro hnp
    unfold trace
    refine filter_eq_singleton ?_ ?_ ?_
    · exact List.nodup_reverse.mpr (List.nodup_range _)
    · rw [List.mem_reverse, List.mem_range]
      exact hroot
    · intro i _
      constructor
      · intro hr
        have hreach : Reaches g root i := reachF_sound hr
        cases hreach with
        | refl => rfl
        | step hp _ => rw [hnp] at hp; simp at hp
      · intro he
        subst he
        simp [reachb, reachF]

/-- C2 witness: on the two-step `Double` chain the trace from the final
node is exactly `[2, 1, 0]`, reachable-set membership, descending order
and the parent-after-consumer position property all hold concretely. -/
theorem trace_exactness_witness :
    (∀ i, i ∈ trace gD 2 ↔ Reaches gD 2 i) ∧
    List.Pairwise (fun a b => seqOf gD b < seqOf gD a) (trace gD 2) ∧
    (∀ m ∈ trace gD 2, ∀ p ∈ parentsOf gD m,
      p ∈ trace gD 2 ∧ (trace gD 2).indexOf m < (trace gD 2).indexOf p) ∧
    (parentsOf gD 2 = [] → trace gD 2 = [2]) :=
  trace_exactness gD 2 (by decide) (by decide)

/-! ### Construction maintains well-formedness -/

theorem WF_iff {g : SGraph P A} :
    WF g ↔ ∀ i nd, getN g i = some nd →
      (nd.seq = i ∧ (∀ p ∈ nd.parents, p < i) ∧ (nd.producer = none → nd.parents = [])) := by
  constructor
  · exact fun hwf i nd h => WF.spec hwf h
  · intro hall
    rw [WF, WFb, List.all_eq_true]
    intro i _
    cases hg : getN g i with
    | none => rfl
    | some nd =>
        obtain ⟨h1, h2, h3⟩ := hall i nd hg
        simp only [Bool.and_eq_true, beq_iff_eq, List.all_eq_true, decide_eq_true_eq,
          Bool.or_eq_true, List.isEmpty_iff]
        refine ⟨⟨h1, h2⟩, ?_⟩
        cases hp : nd.producer with
        | none => exact Or.inr (h3 hp)
        | some p => exact Or.inl (by simp)

theorem getN_append_lt {g : SGraph P A} {l : List (SNode P A)} {i : Nat}
    (h : i < glen g) : getN (g ++ l) i = getN g i :=
  List.getElem?_append_left h

theorem getN_concat_self (g : SGraph P A) (nd : SNode P A) :
    getN (g ++ [nd]) (glen g) = some nd :=
  List.getElem?_concat_length g nd

theorem WF_concat {g : SGraph P A} {nd : SNode P A} (hwf : WF g)
    (hseq : nd.seq = glen g) (hpar : ∀ p ∈ nd.parents, p < glen g)
    (hleaf : nd.producer = none → nd.parents = []) : WF (g ++ [nd]) := by
  rw [WF_iff]
  intro i m hm
  rcases Nat.lt_trichotomy i (glen g) with hi | hi | hi
  · rw [getN_append_lt hi] at hm
    obtain ⟨h1, h2, h3⟩ := WF.spec hwf hm
    exact ⟨h1, h2, h3⟩
  · rw [← hi] at hseq hpar
    rw [hi, getN_concat_self] at hm
    obtain rfl := Option.some_injective _ hm
    exact ⟨hseq, hpar, hleaf⟩
  · have : getN (g ++ [nd]) i = none := by
      rw [getN_eq_none_iff]
      have : glen (g ++ [nd]) = glen g + 1 := by simp [glen]
      rw [this]
      exact hi
    rw [this] at hm
    exact Option.noConfusion hm

theorem Constructed.wf {g : SGraph P A} (hc : Constructed g) : WF g := by
  induction hc with
  | nil => rfl
  | leaf v a _ ih =>
      exact WF_concat ih rfl (by simp) (fun _ => rfl)
  | app fwd p idxs a _ hidx ih =>
      exact WF_concat ih rfl (by simpa using hidx) (fun h => Option.noConfusion h)

/-- C3. In every graph built through the two construction paths (wrapping
a raw value, or applying a primitive to already-constructed nodes), every
node's `seq` is strictly greater than the `seq` of each of its parents —
`seq` is assigned from the single process-wide counter and parents must
already exist — and consequently the parents relation has no cycles: no
parent of a node can reach that node back through `parents` links.  The
graph is a finite list, so the structure is a finite DAG. -/
theorem seq_strictly_decreasing (g : SGraph P A) (hc : Constructed g) :
    (∀ i, ∀ p ∈ parentsOf g i, seqOf g p < seqOf g i) ∧
    (∀ i, ∀ p ∈ parentsOf g i, ¬ Reaches g p i) := by
  have hwf : WF g := hc.wf
  constructor
  · intro i p hp
    rw [hwf.seq_eq i, hwf.seq_eq p]
    exact WF.parents_lt hwf hp
  · intro i p hp hr
    have h1 : i ≤ p := Reaches.le hwf hr
    have h2 : p < i := WF.parents_lt hwf hp
    exact absurd (Nat.lt_of_le_of_lt h1 h2) (Nat.lt_irrefl i)

/-- C3 witness: the two-step `Double` chain is constructed through the
lifecycle paths, and its `seq` fields strictly dominate the parents. -/
theorem seq_strictly_decreasing_witness :
    (∀ i, ∀ p ∈ parentsOf gD i, seqOf gD p < seqOf gD i) ∧
    (∀ i, ∀ p ∈ parentsOf gD i, ¬ Reaches gD p i) :=
  seq_strictly_decreasing gD
    (Constructed.app _ _ _ _
      (Constructed.app _ _ _ _
        (Constructed.leaf _ _ Constructed.nil) (by decide))
      (by decide))

/-- C9. `backward(root)` and `reset_grad(root)` mutate only the `grad`
field: every node's `value`, `producer`, `parents`, `aux` and `seq` are
unchanged (stated via `nodeShape`, the tuple of exactly those fields),
and consequently `trace` returns the same sequence of nodes, in the same
order, from any root, before and after either pass. -/
theorem backward_reset_frame (bwd : P → List ℚ → A → List ℚ)
    (g : SGraph P A) (root : Nat) :
    (∀ j, (getN (backward bwd g root) j).map nodeShape = (getN g j).map nodeShape) ∧
    (∀ j, (getN (reset_grad g root) j).map nodeShape = (getN g j).map nodeShape) ∧
    (∀ r, trace (backward bwd g root) r = trace g r) ∧
    (∀ r, trace (reset_grad g root) r = trace g r) :=
  ⟨shapeEq_backward bwd g root, shapeEq_reset_grad g root,
    trace_of_shapeEq (shapeEq_backward bwd g root),
    trace_of_shapeEq (shapeEq_reset_grad g root)⟩

/-! ### Reset and repeated backward passes -/

theorem WF_of_shapeEq {g h : SGraph P A} (hs : shapeEq h g) (hwf : WF g) : WF h := by
  rw [WF_iff]
  intro i nd hnd
  have hsi := hs i
  rw [hnd] at hsi
  cases hg : getN g i with
  | none => rw [hg] at hsi; exact Option.noConfusion hsi
  | some m =>
      rw [hg] at hsi
      have heq : nodeShape nd = nodeShape m := Option.some_injective _ hsi
      simp only [nodeShape, Prod.mk.injEq] at heq
      obtain ⟨_, hprod, hpar, _, hseq⟩ := heq
      obtain ⟨h1, h2, h3⟩ := WF.spec hwf hg
      exact ⟨hseq ▸ h1, hpar ▸ h2, fun hn => hpar ▸ h3 (hprod ▸ hn)⟩

theorem gradOf_foldl_setnone_not_mem {L : List Nat} {h : SGraph P A} {j : Nat}
    (hj : j ∉ L) : gradOf (L.foldl (fun k i => setGradAt k i none) h) j = gradOf h j := by
  induction L generalizing h with
  | nil => rfl
  | cons c T ih =>
      have hjc : j ≠ c := fun he => hj (he ▸ List.mem_cons_self _ _)
      have hjT : j ∉ T := fun hm => hj (List.mem_cons_of_mem _ hm)
      calc gradOf (T.foldl (fun k i => setGradAt k i none) (setGradAt h c none)) j
          = gradOf (setGradAt h c none) j := ih hjT
        _ = gradOf h j := gradOf_setGradAt_other hjc

theorem gradOf_foldl_setnone_mem {L : List Nat} {h : SGraph P A} {j : Nat}
    (hlen : ∀ i ∈ L, i < glen h) (hj : j ∈ L) :
    gradOf (L.foldl (fun k i => setGradAt k i none) h) j = none := by
  induction L generalizing h with
  | nil => simp at hj
  | cons c T ih =>
      have hlen' : ∀ i ∈ T, i < glen (setGradAt h c none) := by
        intro i hi
        rw [glen_of_shapeEq (shapeEq_setGradAt h c none)]
        exact hlen i (List.mem_cons_of_mem _ hi)
      by_cases hjT : j ∈ T
      · exact ih hlen' hjT
      · have hjc : j = c := by
          rcases List.mem_cons.mp hj with h1 | h1
          · exact h1
          · exact absurd h1 hjT
        subst hjc
        calc gradOf (T.foldl (fun k i => setGradAt k i none) (setGradAt h j none)) j
            = gradOf (setGradAt h j none) j := gradOf_foldl_setnone_not_mem hjT
          _ = none := gradOf_setGradAt_self (hlen j hj)

theorem gradOf_reset_grad_mem {g : SGraph P A} {root j : Nat}
    (hj : j ∈ trace g root) : gradOf (reset_grad g root) j = none :=
  gradOf_foldl_setnone_mem (fun _ hi => trace_lt_glen hi) hj

theorem gradOf_reset_grad_not_mem {g : SGraph P A} {root j : Nat}
    (hj : j ∉ trace g root) : gradOf (reset_grad g root) j = gradOf g j :=
  gradOf_foldl_setnone_not_mem hj

theorem gradOf_foldl_backwardStep_not_parent (bwd : P → List ℚ → A → List ℚ)
    {G : SGraph P A} {L : List Nat} {h : SGraph P A} (hs : shapeEq h G) {j : Nat}
    (hnp : ∀ c ∈ L, j ∉ parentsOf G c) :
    gradOf (L.foldl (backwardStep bwd) h) j = gradOf h j := by
  induction L generalizing h with
  | nil => rfl
  | cons c T ih =>
      have hs' : shapeEq (backwardStep bwd h c) G :=
        shapeEq_trans (shapeEq_backwardStep bwd h c) hs
      calc gradOf (T.foldl (backwardStep bwd) (backwardStep bwd h c)) j
          = gradOf (backwardStep bwd h c) j :=
            ih hs' fun d hd => hnp d (List.mem_cons_of_mem _ hd)
        _ = gradOf h j :=
            gradOf_backwardStep_not_parent bwd hs (hnp c (List.mem_cons_self _ _))

theorem gradOf_backward_not_mem (bwd : P → List ℚ → A → List ℚ)
    {g : SGraph P A} (hwf : WF g) {root j : Nat} (hroot : root < glen g)
    (hj : j ∉ trace g root) : gradOf (backward bwd g root) j = gradOf g j := by
  have hjr : j ≠ root := fun he => hj (by rw [he]; exact root_mem_trace hroot)
  have h1 : gradOf ((trace g root).foldl (backwardStep bwd)
      (setGradAt g root (some 1))) j = gradOf (setGradAt g root (some 1)) j := by
    refine gradOf_foldl_backwardStep_not_parent bwd (shapeEq_setGradAt g root _) ?_
    intro c hc hp
    exact hj (parent_mem_trace hwf hroot hc hp)
  calc gradOf (backward bwd g root) j
      = gradOf (setGradAt g root (some 1)) j := h1
    _ = gradOf g j := gradOf_setGradAt_other hjr

theorem getN_eq_of_shape_grad {g h : SGraph P A} {j : Nat}
    (hsh : (getN g j).map nodeShape = (getN h j).map nodeShape)
    (hgr : gradOf g j = gradOf h j) : getN g j = getN h j := by
  cases hg : getN g j with
  | none =>
      rw [hg] at hsh
      cases hh : getN h j with
      | none => rfl
      | some m => rw [hh] at hsh; exact Option.noConfusion hsh
  | some nd =>
      rw [hg] at hsh
      cases hh : getN h j with
      | none => rw [hh] at hsh; exact Option.noConfusion hsh
      | some m =>
          rw [hh] at hsh
          rw [gradOf, gradOf, hg, hh] at hgr
          have heq : nodeShape nd = nodeShape m := Option.some_injective _ hsh
          simp only [nodeShape, Prod.mk.injEq] at heq
          obtain ⟨h1, h2, h3, h4, h5⟩ := heq
          have : nd = m := by
            cases nd
            cases m
            simp only [SNode.mk.injEq]
            simp only [Option.bind] at hgr
            exact ⟨h1, h2, h3, h4, hgr, h5⟩
          rw [this]

theorem reset_after_backward_after_reset {g : SGraph P A}
    (bwd : P → List ℚ → A → List ℚ) {root : Nat} (hwf : WF g) (hroot : root < glen g) :
    reset_grad (backward bwd (reset_grad g root) root) root = reset_grad g root := by
  set r1 := reset_grad g root with hr1
  set b1 := backward bwd r1 root with hb1
  have hs1 : shapeEq r1 g := shapeEq_reset_grad g root
  have hsb : shapeEq b1 r1 := shapeEq_backward bwd r1 root
  have hwf1 : WF r1 := WF_of_shapeEq hs1 hwf
  have hroot1 : root < glen r1 := by rw [glen_of_shapeEq hs1]; exact hroot
  have htr1 : trace r1 root = trace g root := trace_of_shapeEq hs1 root
  have htrb : trace b1 root = trace g root :=
    (trace_of_shapeEq hsb root).trans htr1
  refine List.ext_getElem? ?_
  intro j
  have hsh : (getN (reset_grad b1 root) j).map nodeShape = (getN r1 j).map nodeShape :=
    ((shapeEq_reset_grad b1 root j).trans (hsb j)).trans ((hs1 j).trans (hs1 j).symm)
  refine getN_eq_of_shape_grad hsh ?_
  by_cases hj : j ∈ trace g root
  · rw [gradOf_reset_grad_mem (htrb ▸ hj), gradOf_reset_grad_mem (htr1 ▸ hj)]
  · calc gradOf (reset_grad b1 root) j
        = gradOf b1 j := gradOf_reset_grad_not_mem (htrb ▸ hj)
      _ = gradOf r1 j := gradOf_backward_not_mem bwd hwf1 hroot1 (htr1 ▸ hj)

/-- After one backward pass on the `Double` chain the graph is the fully
evaluated literal: grads 4, 2, 1 from leaf to root. -/
theorem gD_backward_once :
    backward sbwd gD 2 =
      [⟨1, none, [], 0, some 4, 0⟩,
       ⟨2, some SPrim.Double, [0], 0, some 2, 1⟩,
       ⟨4, some SPrim.Double, [1], 0, some 1, 2⟩] := by
  have ht : trace gD 2 = [2, 1, 0] := by decide
  simp only [backward, ht, List.foldl_cons, List.foldl_nil]
  norm_num [backwardStep, contribFold, addGrad, setGradAt, getN, gradOf, valueOf,
    parentsOf, withGrad, gD, applyNodeG, mkLeaf, glen, sfwd, sbwd, List.set]

/-- A second backward pass without reset leaves grads 12, 4, 1. -/
theorem gD_backward_twice :
    backward sbwd (backward sbwd gD 2) 2 =
      [⟨1, none, [], 0, some 12, 0⟩,
       ⟨2, some SPrim.Double, [0], 0, some 4, 1⟩,
       ⟨4, some SPrim.Double, [1], 0, some 1, 2⟩] := by
  rw [gD_backward_once]
  have ht : trace ([⟨1, none, [], 0, some 4, 0⟩,
       ⟨2, some SPrim.Double, [0], 0, some 2, 1⟩,
       ⟨4, some SPrim.Double, [1], 0, some 1, 2⟩] : SGraph SPrim ℤ) 2 = [2, 1, 0] := by
    decide
  simp only [backward, ht, List.foldl_cons, List.foldl_nil]
  norm_num [backwardStep, contribFold, addGrad, setGradAt, getN, gradOf, valueOf,
    parentsOf, withGrad, glen, sfwd, sbwd, List.set]

/-- C4 counterexample: on the chain `z = Double(Double(x))`, a single
backward pass gives `x.grad = 4`, but a second backward pass without an
intervening `reset_grad` gives `x.grad = 12`, not the claimed doubled
value `8`: stale accumulations compound through the chain rule. -/
theorem backward_twice_not_double :
    gradOf (backward sbwd gD 2) 0 = some 4 ∧
    gradOf (backward sbwd (backward sbwd gD 2) 2) 0 = some 12 ∧
    gradOf (backward sbwd (backward sbwd gD 2) 2) 0 ≠ some (2 * 4) := by
  rw [gD_backward_twice, gD_backward_once]
  refine ⟨rfl, rfl, ?_⟩
  simp only [gradOf, getN, ne_eq, Option.some.injEq]
  norm_num

/-- C4 (amended). `reset_grad(root)` followed by `backward(root)`, done
twice in a row, yields identical gradients both times (the two runs
produce identical graphs).  Omitting `reset_grad` between two
`backward(root)` calls leaves the stale accumulations in place, but the
result is not in general double the single-pass values: on the chain
`z = Double(Double(x))` the second pass leaves `x.grad = 12`, three times
the single-pass value 4 (only nodes all of whose consumers are the root
get exactly doubled). -/
theorem reset_backward_idempotent (bwd : P → List ℚ → A → List ℚ)
    (g : SGraph P A) (root : Nat) (hwf : WF g) (hroot : root < glen g) :
    backward bwd (reset_grad (backward bwd (reset_grad g root) root) root) root
      = backward bwd (reset_grad g root) root ∧
    (gradOf (backward sbwd gD 2) 0 = some 4 ∧
     gradOf (backward sbwd (backward sbwd gD 2) 2) 0 = some 12) :=
  ⟨congrArg (fun h => backward bwd h root)
      (reset_after_backward_after_reset bwd hwf hroot),
    by rw [gD_backward_once]; rfl, by rw [gD_backward_twice]; rfl⟩

/-- C4 witness: the idempotence equation instantiated on the `Double`
chain. -/
theorem reset_backward_idempotent_witness :
    backward sbwd (reset_grad (backward sbwd (reset_grad gD 2) 2) 2) 2
      = backward sbwd (reset_grad gD 2) 2 ∧
    (gradOf (backward sbwd gD 2) 0 = some 4 ∧
     gradOf (backward sbwd (backward sbwd gD 2) 2) 0 = some 12) :=
  reset_backward_idempotent sbwd gD 2 (by decide) (by decide)

/-! ### Primitive invocation modes -/

/-- C5. Invoking a primitive with a mix of graph nodes and raw numbers
among its positional (differentiable) arguments is the fatal
`MixedArgumentKind` usage error, surfaced immediately at call time: the
invocation returns the error and neither evaluates `forward` nor builds
any node. -/
theorem applyPrim_mixed_error (fwd : P → List ℚ → A → ℚ) (p : P)
    (g : SGraph P A) (args : List (Nat ⊕ ℚ)) (a : A)
    (hnode : ∃ x ∈ args, x.isLeft = true) (hraw : ∃ y ∈ args, y.isRight = true) :
    applyPrim fwd p g args a = Except.error ApplyErr.MixedArgumentKind := by
  cases args with
  | nil =>
      obtain ⟨x, hx, _⟩ := hnode
      simp at hx
  | cons hd tl =>
      cases hd with
      | inl j =>
          obtain ⟨y, hy, hyr⟩ := hraw
          have : ¬ ((Sum.inl j :: tl).all fun x => x.isLeft) := by
            rw [List.all_eq_true]
            intro hall
            have := hall y hy
            cases y with
            | inl _ => simp at hyr
            | inr _ => simp at this
          simp only [applyPrim, List.head?_cons]
          rw [if_neg (by simpa using this)]
      | inr v =>
          obtain ⟨x, hx, hxl⟩ := hnode
          have : ¬ ((Sum.inr v :: tl).all fun x => x.isRight) := by
            rw [List.all_eq_true]
            intro hall
            have := hall x hx
            cases x with
            | inl _ => simp at this
            | inr _ => simp at hxl
          simp only [applyPrim, List.head?_cons]
          rw [if_neg (by simpa using this)]

/-- C5 witness: `Double` invoked on one node argument and one raw
argument fails with `MixedArgumentKind`. -/
theorem applyPrim_mixed_error_witness :
    applyPrim sfwd SPrim.Double gD [Sum.inl 0, Sum.inr 5] 0
      = Except.error ApplyErr.MixedArgumentKind :=
  applyPrim_mixed_error sfwd SPrim.Double gD [Sum.inl 0, Sum.inr 5] 0
    ⟨Sum.inl 0, by simp⟩ ⟨Sum.inr 5, by simp⟩

/-- C6. When the first positional argument of a primitive is a raw number
(and hence all positional arguments are raw), the call degenerates to
pure numeric evaluation: `forward(*values, **aux)` is returned directly
as a plain number, no node is constructed and the graph is untouched.
When the first argument is a node (and all are nodes), the call returns a
fresh node appended to the graph whose `value` is `forward` applied to
the parents' values, with the primitive as `producer`, the arguments in
given order as `parents`, the call's aux configuration, an unset grad and
a fresh `seq`. -/
theorem applyPrim_dual_mode (fwd : P → List ℚ → A → ℚ) (p : P)
    (g : SGraph P A) (a : A) :
    (∀ (args : List (Nat ⊕ ℚ)) (v : ℚ), args.head? = some (Sum.inr v) →
      (∀ x ∈ args, x.isRight = true) →
      applyPrim fwd p g args a = Except.ok (ApplyRes.num (fwd p (args.map rawVal) a))) ∧
    (∀ (args : List (Nat ⊕ ℚ)) (j : Nat), args.head? = some (Sum.inl j) →
      (∀ x ∈ args, x.isLeft = true) →
      applyPrim fwd p g args a = Except.ok (ApplyRes.node
        (g ++ [⟨fwd p ((args.map nodeIdx).map (valueOf g)) a, some p,
          args.map nodeIdx, a, none, glen g⟩]) (glen g))) := by
  constructor
  · intro args v hhead hall
    cases args with
    | nil => simp at hhead
    | cons hd tl =>
        rw [List.head?_cons] at hhead
        obtain rfl := Option.some_injective _ hhead
        simp only [applyPrim, List.head?_cons]
        rw [if_pos (by rw [List.all_eq_true]; exact hall)]
  · intro args j hhead hall
    cases args with
    | nil => simp at hhead
    | cons hd tl =>
        rw [List.head?_cons] at hhead
        obtain rfl := Option.some_injective _ hhead
        simp only [applyPrim, List.head?_cons]
        rw [if_pos (by rw [List.all_eq_true]; exact hall)]
        rfl

/-- C6 witness: `Double` applied to the raw number 3 returns the plain
number 6 with no node built, and applied to node 0 of the `Double` chain
appends a fresh node with value 2, producer `Double`, parents `[0]` and
`seq` 3. -/
theorem applyPrim_dual_mode_witness :
    applyPrim sfwd SPrim.Double gD [Sum.inr 3] 0
      = Except.ok (ApplyRes.num (sfwd SPrim.Double [(3 : ℚ)] 0)) ∧
    applyPrim sfwd SPrim.Double gD [Sum.inl 0] 0
      = Except.ok (ApplyRes.node
          (gD ++ [⟨sfwd SPrim.Double [valueOf gD 0] 0, some SPrim.Double,
            [0], 0, none, 3⟩]) 3) := by
  constructor
  · exact (applyPrim_dual_mode sfwd SPrim.Double gD 0).1 [Sum.inr 3] 3 rfl
      (by intro x hx; simp at hx; simp [hx])
  · exact (applyPrim_dual_mode sfwd SPrim.Double gD 0).2 [Sum.inl 0] 0 rfl
      (by intro x hx; simp at hx; simp [hx])

/-- C10. A node supports the ordering comparisons against a plain number
operand and against another node, decided solely by `value`: `s < c` iff
`s.value < c`, `s > c` iff `s.value > c`, and `s > t` iff
`s.value > t.value`; two nodes with equal `value` compare identically
regardless of their `grad`, `producer`, `parents`, `aux` or `seq`. -/
theorem node_compare_by_value :
    (∀ (s : SNode P A) (c : ℚ),
      (sLtRaw s c = true ↔ s.value < c) ∧ (sGtRaw s c = true ↔ s.value > c)) ∧
    (∀ s t : SNode P A, sGtNode s t = true ↔ s.value > t.value) ∧
    (∀ (s s' : SNode P A) (c : ℚ), s.value = s'.value →
      sLtRaw s c = sLtRaw s' c ∧ sGtRaw s c = sGtRaw s' c ∧
      ∀ t : SNode P A, sGtNode s t = sGtNode s' t) := by
  refine ⟨fun s c => ⟨?_, ?_⟩, fun s t => ?_, fun s s' c hv => ⟨?_, ?_, fun t => ?_⟩⟩
  · simp [sLtRaw]
  · simp [sGtRaw, GT.gt]
  · simp [sGtNode, GT.gt]
  · simp [sLtRaw, hv]
  · simp [sGtRaw, hv]
  · simp [sGtNode, hv]

/-- C10 witness: comparisons on two concrete nodes sharing a value but
differing in every other field. -/
theorem node_compare_by_value_witness :
    ((⟨3, none, [], (0 : ℤ), none, 0⟩ : SNode SPrim ℤ).value
        = (⟨3, some SPrim.Double, [1], 7, some 5, 4⟩ : SNode SPrim ℤ).value) ∧
    (sLtRaw (⟨3, none, [], (0 : ℤ), none, 0⟩ : SNode SPrim ℤ) 2
        = sLtRaw (⟨3, some SPrim.Double, [1], 7, some 5, 4⟩ : SNode SPrim ℤ) 2 ∧
      sGtRaw (⟨3, none, [], (0 : ℤ), none, 0⟩ : SNode SPrim ℤ) 2
        = sGtRaw (⟨3, some SPrim.Double, [1], 7, some 5, 4⟩ : SNode SPrim ℤ) 2 ∧
      ∀ t : SNode SPrim ℤ,
        sGtNode (⟨3, none, [], (0 : ℤ), none, 0⟩ : SNode SPrim ℤ) t
          = sGtNode (⟨3, some SPrim.Double, [1], 7, some 5, 4⟩ : SNode SPrim ℤ) t) :=
  ⟨rfl, node_compare_by_value.2.2 _ _ 2 rfl⟩

/-- The gradient of the polynomial-composition graph with respect to its
leaf: for every leaf value `q`, the backward pass leaves
`v.grad = 16*q^3 + 4*q + 3`. -/
theorem gPoly_grad (q : ℚ) :
    gradOf (backward sbwd (gPoly q) 4) 0 = some (16 * q ^ 3 + 4 * q + 3) := by
  have ht : trace (gPoly q) 4 = [4, 3, 2, 1, 0] := rfl
  have hwfG : WF (gPoly q) := rfl
  have hp4 : parentsOf (gPoly q) 4 = [0, 1, 2, 3] := rfl
  have hp3 : parentsOf (gPoly q) 3 = [2] := rfl
  have hp2 : parentsOf (gPoly q) 2 = [1, 0] := rfl
  have hp1 : parentsOf (gPoly q) 1 = [0] := rfl
  have hp0 : parentsOf (gPoly q) 0 = [] := rfl
  have ha4 : arityOkAt sbwd (gPoly q) 4 := rfl
  have ha3 : arityOkAt sbwd (gPoly q) 3 := rfl
  have ha2 : arityOkAt sbwd (gPoly q) 2 := rfl
  have ha1 : arityOkAt sbwd (gPoly q) 1 := rfl
  -- slot sums of the four producers
  have hs40 : slotSum sbwd (gPoly q) 4 0 = 1 := by
    have h : slotSum sbwd (gPoly q) 4 0 = (1 : ℚ) + 0 := rfl
    rw [h, add_zero]
  have hs41 : slotSum sbwd (gPoly q) 4 1 = 1 := by
    have h : slotSum sbwd (gPoly q) 4 1 = (1 : ℚ) + 0 := rfl
    rw [h, add_zero]
  have hs42 : slotSum sbwd (gPoly q) 4 2 = 1 := by
    have h : slotSum sbwd (gPoly q) 4 2 = (1 : ℚ) + 0 := rfl
    rw [h, add_zero]
  have hs43 : slotSum sbwd (gPoly q) 4 3 = 1 := by
    have h : slotSum sbwd (gPoly q) 4 3 = (1 : ℚ) + 0 := rfl
    rw [h, add_zero]
  have hs32 : slotSum sbwd (gPoly q) 3 2 = 4 * q ^ 2 := by
    have h : slotSum sbwd (gPoly q) 3 2
        = ((2 : ℤ) : ℚ) * (2 * q * q) ^ ((2 : ℤ) - 1) + 0 := rfl
    rw [h]
    norm_num
    ring
  have hs21 : slotSum sbwd (gPoly q) 2 1 = q := by
    have h : slotSum sbwd (gPoly q) 2 1 = q + 0 := rfl
    rw [h, add_zero]
  have hs20 : slotSum sbwd (gPoly q) 2 0 = 2 * q := by
    have h : slotSum sbwd (gPoly q) 2 0 = 2 * q + 0 := rfl
    rw [h, add_zero]
  have hs10 : slotSum sbwd (gPoly q) 1 0 = 2 := by
    have h : slotSum sbwd (gPoly q) 1 0 = (2 : ℚ) + 0 := rfl
    rw [h, add_zero]
  set g0 := setGradAt (gPoly q) 4 (some 1) with hg0
  set G1 := backwardStep sbwd g0 4 with hG1
  set G2 := backwardStep sbwd G1 3 with hG2
  set G3 := backwardStep sbwd G2 2 with hG3
  set G4 := backwardStep sbwd G3 1 with hG4
  set G5 := backwardStep sbwd G4 0 with hG5
  have hs0 : shapeEq g0 (gPoly q) := shapeEq_setGradAt _ _ _
  have hsh1 : shapeEq G1 (gPoly q) := shapeEq_trans (shapeEq_backwardStep sbwd g0 4) hs0
  have hsh2 : shapeEq G2 (gPoly q) := shapeEq_trans (shapeEq_backwardStep sbwd G1 3) hsh1
  have hsh3 : shapeEq G3 (gPoly q) := shapeEq_trans (shapeEq_backwardStep sbwd G2 2) hsh2
  have hsh4 : shapeEq G4 (gPoly q) := shapeEq_trans (shapeEq_backwardStep sbwd G3 1) hsh3
  have h04 : gradOf g0 4 = some 1 := gradOf_setGradAt_self (by show (4:ℕ) < 5; norm_num)
  have h00 : gradOf g0 0 = none := (gradOf_setGradAt_other (by decide)).trans rfl
  have h01 : gradOf g0 1 = none := (gradOf_setGradAt_other (by decide)).trans rfl
  have h02 : gradOf g0 2 = none := (gradOf_setGradAt_other (by decide)).trans rfl
  have h03 : gradOf g0 3 = none := (gradOf_setGradAt_other (by decide)).trans rfl
  -- step at node 4 (Sum)
  have e10 : gradOf G1 0 = some 1 := by
    rw [hG1, gradOf_backwardStep_parent sbwd hs0 hwfG ha4 (by rw [hp4]; simp),
      h00, h04, hs40]
    simp
  have e11 : gradOf G1 1 = some 1 := by
    rw [hG1, gradOf_backwardStep_parent sbwd hs0 hwfG ha4 (by rw [hp4]; simp),
      h01, h04, hs41]
    simp
  have e12 : gradOf G1 2 = some 1 := by
    rw [hG1, gradOf_backwardStep_parent sbwd hs0 hwfG ha4 (by rw [hp4]; simp),
      h02, h04, hs42]
    simp
  have e13 : gradOf G1 3 = some 1 := by
    rw [hG1, gradOf_backwardStep_parent sbwd hs0 hwfG ha4 (by rw [hp4]; simp),
      h03, h04, hs43]
    simp
  -- step at node 3 (Pow)
  have e22 : gradOf G2 2 = some (1 + 4 * q ^ 2) := by
    rw [hG2, gradOf_backwardStep_parent sbwd hsh1 hwfG ha3 (by rw [hp3]; simp),
      e12, e13, hs32]
    simp
  have f21 : gradOf G2 1 = some 1 := by
    rw [hG2, gradOf_backwardStep_not_parent sbwd hsh1 (by rw [hp3]; simp), e11]
  have f20 : gradOf G2 0 = some 1 := by
    rw [hG2, gradOf_backwardStep_not_parent sbwd hsh1 (by rw [hp3]; simp), e10]
  -- step at node 2 (Times)
  have e31 : gradOf G3 1 = some (1 + q * (1 + 4 * q ^ 2)) := by
    rw [hG3, gradOf_backwardStep_parent sbwd hsh2 hwfG ha2 (by rw [hp2]; simp),
      f21, e22, hs21]
    simp
  have e30 : gradOf G3 0 = some (1 + 2 * q * (1 + 4 * q ^ 2)) := by
    rw [hG3, gradOf_backwardStep_parent sbwd hsh2 hwfG ha2 (by rw [hp2]; simp),
      f20, e22, hs20]
    simp
  -- step at node 1 (Double)
  have e40 : gradOf G4 0
      = some ((1 + 2 * q * (1 + 4 * q ^ 2)) + 2 * (1 + q * (1 + 4 * q ^ 2))) := by
    rw [hG4, gradOf_backwardStep_parent sbwd hsh3 hwfG ha1 (by rw [hp1]; simp),
      e30, e31, hs10]
    simp
  -- step at node 0 (leaf)
  have f50 : gradOf G5 0 = gradOf G4 0 :=
    gradOf_backwardStep_not_parent sbwd hsh4 (by rw [hp0]; simp)
  have hb : backward sbwd (gPoly q) 4 = G5 := by
    rw [backward, ht]
    simp only [List.foldl_cons, List.foldl_nil]
  rw [hb, f50, e40]
  rw [Option.some_inj]
  ring

/-- C8. For `v = Scalar(3)`, `w = Double(v)`, `t = Times(w,v)`,
`p = Pow(t,p=2)`, `z = Sum(v,w,t,p)`: `z.value = 351` and after
`backward(z)` the leaf gradient is `v.grad = 447`; in general
`dz/dv = 16*v^3 + 4*v + 3` for every leaf value. -/
theorem poly_composition (q : ℚ) :
    valueOf (gPoly 3) 4 = 351 ∧
    gradOf (backward sbwd (gPoly 3) 4) 0 = some 447 ∧
    gradOf (backward sbwd (gPoly q) 4) 0 = some (16 * q ^ 3 + 4 * q + 3) := by
  refine ⟨?_, ?_, gPoly_grad q⟩
  · have hv : valueOf (gPoly 3) 4
        = (3 : ℚ) + (2 * 3 + (2 * 3 * 3 + ((2 * 3 * 3) ^ (2 : ℤ) + 0))) := rfl
    rw [hv]
    norm_num
  · rw [gPoly_grad 3]
    norm_num

end Semiautograd
